import Mathlib

/-!
# Diglett wire protocol: shallow embedding and verification

This file embeds the core of the Diglett reverse-tunnel codebase in Lean:
the ChaCha20-based `Encrypted` transport wrapper (src/wire/encrypt.rs), the
framing codec (src/wire/frame.rs), the typed `Message` layer
(src/wire/mod.rs), the gateway registration state machine
(src/server/mod.rs) and the agent multiplexer loop (src/agent/mod.rs).

Machine integers are modelled as `Nat` with explicit reductions modulo
`2 ^ w` where the Rust code truncates.  A ChaCha20 keystream is modelled as
an arbitrary function `ks : Nat → Nat` from keystream position to keystream
byte; `apply_keystream` at position `p` XORs each buffer byte with the
keystream byte at its absolute stream position, exactly as the positional
stream cipher does.  Two cipher states built from the same shared key
produce the same keystream, so "same key" is modelled as "same `ks`".
Strings on the wire are modelled by their byte sequences (`List Nat`);
`strBytes` maps the ASCII protocol strings to those bytes.
-/

namespace Diglett

/-- ASCII byte sequence of a protocol string.  All strings the protocol
emits are ASCII, where UTF-8 bytes coincide with code points. -/
def strBytes (s : String) : List Nat :=
  s.data.map Char.toNat

/-- Error kinds of the crate (src/lib.rs `enum Error`).  `ioErr` stands for
`Error::IO`; the wrapped payloads that are irrelevant to control flow are
dropped. -/
inductive Error where
  | invalidMagic
  | invalidVersion (v : Nat)
  | invalidHeader
  | unexpectedMessage
  | remote (msg : List Nat)
  | authenticationError (msg : List Nat)
  | encryption
  | ioErr
deriving DecidableEq, Repr

/-! ## Keystream application (chacha20 `apply_keystream`) -/

/-- XOR a buffer with the keystream starting at absolute position `p`
(`cipher.apply_keystream` with the cipher seeked to `p`). -/
def applyKeystream (ks : Nat → Nat) : Nat → List Nat → List Nat
  | _, [] => []
  | p, b :: rest => (b ^^^ ks p) :: applyKeystream ks (p + 1) rest

@[simp] theorem applyKeystream_nil (ks : Nat → Nat) (p : Nat) :
    applyKeystream ks p [] = [] := rfl

@[simp] theorem applyKeystream_cons (ks : Nat → Nat) (p b : Nat) (l : List Nat) :
    applyKeystream ks p (b :: l) = (b ^^^ ks p) :: applyKeystream ks (p + 1) l := rfl

@[simp] theorem applyKeystream_length (ks : Nat → Nat) (p : Nat) (l : List Nat) :
    (applyKeystream ks p l).length = l.length := by
  induction l generalizing p with
  | nil => rfl
  | cons b rest ih => simp [ih]

theorem applyKeystream_append (ks : Nat → Nat) (p : Nat) (l r : List Nat) :
    applyKeystream ks p (l ++ r) =
      applyKeystream ks p l ++ applyKeystream ks (p + l.length) r := by
  induction l generalizing p with
  | nil => simp
  | cons b rest ih =>
      simp only [List.cons_append, applyKeystream_cons, ih, List.length_cons]
      have h : p + 1 + rest.length = p + (rest.length + 1) := by omega
      rw [h]

/-- XORing with the same keystream at the same position twice is the
identity: decryption undoes encryption. -/
@[simp] theorem applyKeystream_applyKeystream (ks : Nat → Nat) (p : Nat) (l : List Nat) :
    applyKeystream ks p (applyKeystream ks p l) = l := by
  induction l generalizing p with
  | nil => rfl
  | cons b rest ih =>
      simp only [applyKeystream_cons, ih]
      congr 1
      rw [Nat.xor_assoc, Nat.xor_self, Nat.xor_zero]

theorem applyKeystream_take (ks : Nat → Nat) (p n : Nat) (l : List Nat) :
    (applyKeystream ks p l).take n = applyKeystream ks p (l.take n) := by
  induction l generalizing p n with
  | nil => simp
  | cons b rest ih =>
      cases n with
      | zero => simp
      | succ m => simp [ih]

theorem applyKeystream_drop (ks : Nat → Nat) (p n : Nat) (l : List Nat) :
    (applyKeystream ks p l).drop n = applyKeystream ks (p + n) (l.drop n) := by
  induction l generalizing p n with
  | nil => simp
  | cons b rest ih =>
      cases n with
      | zero => simp
      | succ m =>
          simp only [applyKeystream_cons, List.drop_succ_cons, ih]
          have : p + 1 + m = p + (m + 1) := by omega
          rw [this]

/-! ## The `Encrypted` transport wrapper (src/wire/encrypt.rs)

`Encrypted<I>` holds the inner transport, the shared key, and a *single*
`ChaCha20` cipher value.  The state relevant to the embedding is the
cipher's keystream position (`cipher.current_pos`); the keystream bytes
themselves are the pure function `ks` fixed by the shared key. -/

/-- Cipher state of an `Encrypted` value: the keystream position of its one
`cipher: ChaCha20` field. -/
structure EncryptedState where
  pos : Nat
deriving DecidableEq, Repr

/-- A fresh `Encrypted::new` starts its cipher at keystream position 0. -/
def EncryptedState.new : EncryptedState := ⟨0⟩

/-- Result of the inner transport's `poll_write`: `ready n` means the
transport accepted `n` bytes, `pending` means would-block. -/
inductive WritePoll where
  | ready (n : Nat)
  | pending
deriving DecidableEq, Repr

/-- `Encrypted::poll_read` (src/wire/encrypt.rs lines 62–84), in full
generality: the caller's `ReadBuf` already holds `filled` bytes (as left
there by earlier polls — already XORed once each), the inner transport
appends `new`, and the code then calls
`cipher.apply_keystream(buf.filled_mut())`: it XORs the *entire* filled
region `filled ++ new` with the keystream at the cipher's current
position, advancing the single cipher by the whole region's length.
Returns the buffer contents after the poll and the new state. -/
def EncryptedState.pollReadBuf (ks : Nat → Nat) (e : EncryptedState)
    (filled new : List Nat) : List Nat × EncryptedState :=
  (applyKeystream ks e.pos (filled ++ new), ⟨e.pos + (filled ++ new).length⟩)

/-- `Encrypted::poll_read` on a fresh (empty-prefill) `ReadBuf`, as a
single `read` call performs: the filled region is exactly the bytes the
inner transport just delivered, so only `chunk` is decrypted and the
cipher advances by `chunk.length`.  This is `pollReadBuf` with no
previously filled bytes; `read_exact`, which reuses one `ReadBuf` across
polls, is driven through `pollReadBuf` directly (see `readExactPolls`). -/
def EncryptedState.pollRead (ks : Nat → Nat) (e : EncryptedState) (chunk : List Nat) :
    List Nat × EncryptedState :=
  EncryptedState.pollReadBuf ks e [] chunk

/-- `Encrypted::poll_write` (src/wire/encrypt.rs lines 86–126): record
`current = cipher.current_pos`, XOR the whole buffer (advancing the cipher
to `current + buf.length`), hand the ciphertext to the inner transport.
On `Ready(Ok(n))` with `buf.length > n` seek the cipher back to
`current + n`; on `Pending` seek back to `current`.  Returns the ciphertext
bytes the transport actually consumed and the new state. -/
def EncryptedState.pollWrite (ks : Nat → Nat) (e : EncryptedState) (buf : List Nat)
    (r : WritePoll) : List Nat × EncryptedState :=
  let encrypted := applyKeystream ks e.pos buf
  match r with
  | .ready n =>
      if buf.length > n then (encrypted.take n, ⟨e.pos + n⟩)
      else (encrypted, ⟨e.pos + buf.length⟩)
  | .pending => ([], ⟨e.pos⟩)

/-- `Encrypted::split` (src/wire/encrypt.rs lines 142–150): each half is a
fresh `Encrypted::new(half, self.key)`, so each owns a brand-new cipher at
keystream position 0.  The original single cipher is discarded. -/
def EncryptedState.split (_ : EncryptedState) : EncryptedState × EncryptedState :=
  (EncryptedState.new, EncryptedState.new)

/-! ## Framing codec (src/wire/frame.rs)

Frame header layout (`define_layout!(frame, BigEndian, ...)`): kind `u8`,
id `u32`, size `u16` — 7 bytes, big-endian. -/

/-- Big-endian bytes of a `u32`. -/
def be4 (x : Nat) : List Nat :=
  [x / 2 ^ 24 % 256, x / 2 ^ 16 % 256, x / 2 ^ 8 % 256, x % 256]

/-- Big-endian bytes of a `u16`. -/
def be2 (x : Nat) : List Nat :=
  [x / 2 ^ 8 % 256, x % 256]

/-- Parse a big-endian `u32` from the first four elements of a byte list. -/
def parse4 (l : List Nat) : Nat :=
  l.getD 0 0 * 2 ^ 24 + l.getD 1 0 * 2 ^ 16 + l.getD 2 0 * 2 ^ 8 + l.getD 3 0

/-- Frame kinds (src/wire/frame.rs `enum Kind`), numeric encoding 0–7. -/
inductive Kind where
  | ok
  | error
  | register
  | finishRegister
  | payload
  | close
  | terminate
  | login
deriving DecidableEq, Repr

/-- The `#[repr(u8)]` discriminant of a `Kind`. -/
def Kind.toByte : Kind → Nat
  | .ok => 0
  | .error => 1
  | .register => 2
  | .finishRegister => 3
  | .payload => 4
  | .close => 5
  | .terminate => 6
  | .login => 7

/-- `impl TryFrom<u8> for Kind` (src/wire/frame.rs lines 93–110). -/
def Kind.tryFrom : Nat → Option Kind
  | 0 => some .ok
  | 1 => some .error
  | 2 => some .register
  | 3 => some .finishRegister
  | 4 => some .payload
  | 5 => some .close
  | 6 => some .terminate
  | 7 => some .login
  | _ => none

/-- The 7 header bytes of a frame, before encryption. -/
def frameHeader (k : Kind) (id size : Nat) : List Nat :=
  k.toByte :: (be4 id ++ be2 size)

/-- `FrameWriterHalf::write` (src/wire/frame.rs lines 200–231): fill the
header (size is `data.len() as u16`, i.e. truncated mod 2^16; 0 when no
payload), encrypt the header in place with the writer's cipher, then
encrypt and append the payload.  Returns the wire bytes and the writer
cipher's new keystream position. -/
def frameWrite (ks : Nat → Nat) (p : Nat) (k : Kind) (id : Nat)
    (payload : Option (List Nat)) : List Nat × Nat :=
  match payload with
  | none => (applyKeystream ks p (frameHeader k id 0), p + 7)
  | some d =>
      (applyKeystream ks p (frameHeader k id (d.length % 2 ^ 16)) ++
        applyKeystream ks (p + 7) d,
       p + 7 + d.length)

/-- `FrameReaderHalf::read` (src/wire/frame.rs lines 150–184): read exactly
7 bytes, decrypt in place, parse kind (unknown kind byte ↦
`Error::InvalidHeader`), id and size; when `size > 0` read exactly `size`
more bytes and decrypt them.  Returns kind, id, optional payload, the
reader cipher's new position, and the unconsumed input; too little input
models a transport read failure (`ioErr`). -/
def frameRead (ks : Nat → Nat) (p : Nat) (input : List Nat) :
    Except Error ((Kind × Nat × Option (List Nat)) × Nat × List Nat) :=
  if input.length < 7 then .error .ioErr
  else
    let hdr := applyKeystream ks p (input.take 7)
    match Kind.tryFrom (hdr.getD 0 0) with
    | none => .error .invalidHeader
    | some k =>
        let id := parse4 (hdr.drop 1)
        let size := hdr.getD 5 0 * 2 ^ 8 + hdr.getD 6 0
        if size = 0 then .ok ((k, id, none), p + 7, input.drop 7)
        else if (input.drop 7).length < size then .error .ioErr
        else
          .ok ((k, id, some (applyKeystream ks (p + 7) ((input.drop 7).take size))),
               p + 7 + size, input.drop (7 + size))

/-! ## Typed messages (src/wire/mod.rs)

`Registration` is a `u16` newtype and `Stream` a `u32` newtype; both are
modelled as `Nat` ids (bounds appear as hypotheses where conversions
truncate).  String fields carry their wire bytes. -/

/-- `enum Control` (src/wire/mod.rs lines 90–103). -/
inductive Control where
  | ok
  | error (msg : List Nat)
  | register (id : Nat) (name : List Nat)
  | finishRegister
  | close (id : Nat)
  | login (token : List Nat)
deriving DecidableEq, Repr

/-- `enum Message` (src/wire/mod.rs lines 105–110). -/
inductive Message where
  | control (c : Control)
  | payload (id : Nat) (data : List Nat)
  | terminate
deriving DecidableEq, Repr

/-- The frame that `Connection::control` builds for each control message
(src/wire/mod.rs lines 145–182): kind, id field, optional payload. -/
def Control.toFrame : Control → Kind × Nat × Option (List Nat)
  | .ok => (.ok, 0, none)
  | .error msg => (.error, 0, some msg)
  | .register id name => (.register, id, some name)
  | .finishRegister => (.finishRegister, 0, none)
  | .close id => (.close, id, none)
  | .login token => (.login, 0, some token)

/-- `Connection::control`: build the frame for `ctl` and write it through
the frame writer (then flush).  Returns wire bytes and new writer position. -/
def Connection.control (ks : Nat → Nat) (p : Nat) (ctl : Control) : List Nat × Nat :=
  let f := ctl.toFrame
  frameWrite ks p f.1 f.2.1 f.2.2

/-- `Connection::write` (src/wire/mod.rs lines 199–219): clamp `data` to
`MAX_PAYLOAD_SIZE = 65535` bytes, emit one Payload frame, flush, and
return the number of bytes consumed.  Result: (wire bytes, new writer
position, returned byte count). -/
def Connection.write (ks : Nat → Nat) (p : Nat) (id : Nat) (data : List Nat) :
    (List Nat × Nat) × Nat :=
  let d := if data.length > 65535 then data.take 65535 else data
  (frameWrite ks p .payload id (some d), d.length)

/-- The frame → `Message` mapping of `Connection::read` (src/wire/mod.rs
lines 226–248).  A missing payload reads as the empty byte string
(`payload_into_string` / `payload_into_vec` of an absent payload); the
Register id is the frame id `as u16`. -/
def frameToMessage (k : Kind) (id : Nat) (payload : Option (List Nat)) : Message :=
  match k with
  | .ok => .control .ok
  | .error => .control (.error (payload.getD []))
  | .close => .control (.close id)
  | .register => .control (.register (id % 2 ^ 16) (payload.getD []))
  | .finishRegister => .control .finishRegister
  | .terminate => .terminate
  | .login => .control (.login (payload.getD []))
  | .payload => .payload id (payload.getD [])

/-- `Connection::read`: read one frame and convert it to a `Message`. -/
def Connection.read (ks : Nat → Nat) (p : Nat) (input : List Nat) :
    Except Error (Message × Nat × List Nat) :=
  match frameRead ks p input with
  | .error e => .error e
  | .ok ((k, id, payload), p', rest) => .ok (frameToMessage k id payload, p', rest)

/-- The `Connection` write path for a whole `Message`, as the spec states
it: `Connection::control` for control messages, `Connection::write` for
`Payload`.  `Message::Terminate` is neither a `Control` nor a payload, so
no write path exists for it (`none`). -/
def Connection.sendMessage (ks : Nat → Nat) (p : Nat) : Message → Option (List Nat × Nat)
  | .control c => some (Connection.control ks p c)
  | .payload id data => some (Connection.write ks p id data).1
  | .terminate => none

/-- Well-formedness of a message with respect to the wire type bounds:
ids fit their Rust integer types (`Registration : u16`, `Stream : u32`)
and variable-length payloads fit the `u16` size field. -/
def Control.wf : Control → Bool
  | .ok => true
  | .error msg => msg.length ≤ 65535
  | .register id name => id < 2 ^ 16 && name.length ≤ 65535
  | .finishRegister => true
  | .close id => id < 2 ^ 32
  | .login token => token.length ≤ 65535

/-- Well-formedness of a `Message` (see `Control.wf`). -/
def Message.wf : Message → Bool
  | .control c => c.wf
  | .payload id data => id < 2 ^ 32 && data.length ≤ 65535
  | .terminate => true

/-! ## Concrete instantiations used by witnesses -/

/-- A concrete keystream for witness instantiations. -/
def testKs (i : Nat) : Nat := i + 1

/-- A concrete key decoder accepting exactly 33-byte slices. -/
def parse33 (k : List Nat) : Option (List Nat) :=
  if k.length = 33 then some k else none

/-! ## Frame round-trip -/

@[simp] theorem frameHeader_length (k : Kind) (id size : Nat) :
    (frameHeader k id size).length = 7 := by
  simp [frameHeader, be4, be2]

@[simp] theorem Kind.tryFrom_toByte (k : Kind) : Kind.tryFrom k.toByte = some k := by
  cases k <;> rfl

theorem parse4_frameHeader (k : Kind) (id size : Nat) (hid : id < 2 ^ 32) :
    parse4 ((frameHeader k id size).drop 1) = id := by
  simp only [frameHeader, be4, be2, List.drop_succ_cons, List.drop_zero, parse4,
    List.cons_append, List.nil_append, List.getD_cons_zero, List.getD_cons_succ]
  omega

theorem size_frameHeader (k : Kind) (id size : Nat) (hsize : size < 2 ^ 16) :
    (frameHeader k id size).getD 5 0 * 2 ^ 8 + (frameHeader k id size).getD 6 0 = size := by
  simp only [frameHeader, be4, be2, List.cons_append, List.nil_append,
    List.getD_cons_zero, List.getD_cons_succ]
  omega

/-- The payload as `frameRead` reports it: a zero-size frame reads back as
having no payload, so an explicit empty payload normalises to `none`. -/
def normPayload : Option (List Nat) → Option (List Nat)
  | some [] => none
  | pl => pl

/-- Reading back a written frame (same keystream, same position, as holds
for the two cipher halves of one direction) returns the written kind, id
and payload, advances the reader to the writer's position, and leaves
exactly the trailing input unconsumed. -/
theorem frameRead_frameWrite (ks : Nat → Nat) (p : Nat) (k : Kind) (id : Nat)
    (pl : Option (List Nat)) (tail : List Nat) (hid : id < 2 ^ 32)
    (hpl : ∀ d, pl = some d → d.length ≤ 65535) :
    frameRead ks p ((frameWrite ks p k id pl).1 ++ tail) =
      .ok ((k, id, normPayload pl), (frameWrite ks p k id pl).2, tail) := by
  have hinv := applyKeystream_applyKeystream ks
  match pl with
  | none =>
      have hlen : (applyKeystream ks p (frameHeader k id 0)).length = 7 := by simp
      have htake : ((applyKeystream ks p (frameHeader k id 0)) ++ tail).take 7 =
          applyKeystream ks p (frameHeader k id 0) := List.take_left' hlen
      have hdrop : ((applyKeystream ks p (frameHeader k id 0)) ++ tail).drop 7 =
          tail := List.drop_left' hlen
      simp only [frameWrite, frameRead, List.length_append, hlen, htake, hdrop, hinv]
      rw [if_neg (by omega)]
      have h0 : (frameHeader k id 0).getD 0 0 = k.toByte := rfl
      rw [h0, Kind.tryFrom_toByte]
      rw [parse4_frameHeader k id 0 hid, size_frameHeader k id 0 (by norm_num)]
      simp [normPayload]
  | some d =>
      have hd : d.length ≤ 65535 := hpl d rfl
      have hmod : d.length % 2 ^ 16 = d.length := Nat.mod_eq_of_lt (by omega)
      have hlen : (applyKeystream ks p (frameHeader k id d.length)).length = 7 := by simp
      have hassoc :
          (applyKeystream ks p (frameHeader k id d.length) ++
            applyKeystream ks (p + 7) d) ++ tail =
          applyKeystream ks p (frameHeader k id d.length) ++
            (applyKeystream ks (p + 7) d ++ tail) := by
        simp [List.append_assoc]
      have htake : (applyKeystream ks p (frameHeader k id d.length) ++
          (applyKeystream ks (p + 7) d ++ tail)).take 7 =
          applyKeystream ks p (frameHeader k id d.length) := List.take_left' hlen
      have hdrop : (applyKeystream ks p (frameHeader k id d.length) ++
          (applyKeystream ks (p + 7) d ++ tail)).drop 7 =
          applyKeystream ks (p + 7) d ++ tail := List.drop_left' hlen
      simp only [frameWrite, frameRead, hmod, hassoc, List.length_append, hlen, htake,
        hdrop, hinv, applyKeystream_length]
      rw [if_neg (by omega)]
      have h0 : (frameHeader k id d.length).getD 0 0 = k.toByte := rfl
      rw [h0, Kind.tryFrom_toByte]
      rw [parse4_frameHeader k id _ hid, size_frameHeader k id d.length (by omega)]
      by_cases hnil : d.length = 0
      · have : d = [] := List.length_eq_zero.mp hnil
        subst this
        simp [normPayload]
      · dsimp only
        rw [if_neg hnil, if_neg (by omega : ¬ d.length + tail.length < d.length)]
        have hdlen : (applyKeystream ks (p + 7) d).length = d.length := by simp
        have htkd : (applyKeystream ks (p + 7) d ++ tail).take d.length =
            applyKeystream ks (p + 7) d := List.take_left' hdlen
        have hdrd : (applyKeystream ks (p + 7) d ++ tail).drop d.length = tail :=
          List.drop_left' hdlen
        have hdr7 : ∀ l : List Nat, l.drop (7 + d.length) = (l.drop 7).drop d.length := by
          intro l
          rw [List.drop_drop]
        rw [hdr7, hdrop, htkd, hdrd, hinv]
        cases d with
        | nil => simp at hnil
        | cons a l => simp [normPayload]

/-- Reading the wire bytes of a written frame through `Connection::read`
yields the message determined by the written kind, id and payload. -/
theorem connectionRead_frameWrite (ks : Nat → Nat) (p : Nat) (k : Kind) (id : Nat)
    (pl : Option (List Nat)) (tail : List Nat) (hid : id < 2 ^ 32)
    (hpl : ∀ d, pl = some d → d.length ≤ 65535) :
    Connection.read ks p ((frameWrite ks p k id pl).1 ++ tail) =
      .ok (frameToMessage k id (normPayload pl), (frameWrite ks p k id pl).2, tail) := by
  simp only [Connection.read, frameRead_frameWrite ks p k id pl tail hid hpl]

theorem frameToMessage_payload (id : Nat) (d : List Nat) :
    frameToMessage .payload id (normPayload (some d)) = .payload id d := by
  cases d <;> rfl

@[simp] theorem normPayload_getD (pl : Option (List Nat)) :
    (normPayload pl).getD [] = pl.getD [] := by
  match pl with
  | none => rfl
  | some [] => rfl
  | some (a :: l) => rfl

/-- Kind bytes above 7 are rejected by `Kind::try_from`. -/
theorem Kind.tryFrom_eq_none (n : Nat) : Kind.tryFrom (n + 8) = none := rfl

/-! ## Claim C1: message round-trip through the framing codec -/

/-- C1 counterexample: the claim quantifies over every `Message` and every
kind, but `Message::Terminate` (kind 6) has no encoding on the Connection
write path: `Connection::control` takes a `Control`, which has no Terminate
variant, and `Connection::write` emits only Payload frames.  At the
concrete input `Message.terminate` no frame is produced, so the claimed
round-trip fails there. -/
theorem c1_roundtrip_counterexample :
    Connection.sendMessage testKs 0 Message.terminate = none := rfl

/-- C1 (amended): for every well-formed `Message` other than `Terminate`
(every control kind and Payload, ids within their integer types, payload
lengths up to 65535), encoding it via the Connection write path (`control`
for control messages, `write` for Payload) and decoding the produced frame
via `Connection::read` with the same keystream at the same position yields
a `Message` equal to the original, leaving trailing input untouched. -/
theorem c1_roundtrip (ks : Nat → Nat) (p : Nat) (m : Message) (tail : List Nat)
    (hwf : m.wf = true) (hm : m ≠ Message.terminate) :
    ∃ out : List Nat × Nat, Connection.sendMessage ks p m = some out ∧
      Connection.read ks p (out.1 ++ tail) = .ok (m, out.2, tail) := by
  cases m with
  | terminate => exact absurd rfl hm
  | payload id data =>
      simp only [Message.wf, Bool.and_eq_true, decide_eq_true_eq] at hwf
      refine ⟨(Connection.write ks p id data).1, rfl, ?_⟩
      have hclamp : (if data.length > 65535 then data.take 65535 else data) = data :=
        if_neg (by omega)
      simp only [Connection.write, hclamp]
      rw [connectionRead_frameWrite ks p .payload id (some data) tail hwf.1
        (by intro d hd; cases hd; omega)]
      cases data with
      | nil => rfl
      | cons a l => rfl
  | control c =>
      refine ⟨Connection.control ks p c, rfl, ?_⟩
      cases c with
      | ok =>
          simp only [Connection.control, Control.toFrame]
          rw [connectionRead_frameWrite ks p .ok 0 none tail (by norm_num)
            (by intro d hd; cases hd)]
          rfl
      | finishRegister =>
          simp only [Connection.control, Control.toFrame]
          rw [connectionRead_frameWrite ks p .finishRegister 0 none tail (by norm_num)
            (by intro d hd; cases hd)]
          rfl
      | close id =>
          simp only [Control.wf, Message.wf, decide_eq_true_eq] at hwf
          simp only [Connection.control, Control.toFrame]
          rw [connectionRead_frameWrite ks p .close id none tail hwf
            (by intro d hd; cases hd)]
          rfl
      | error msg =>
          simp only [Control.wf, Message.wf, decide_eq_true_eq] at hwf
          simp only [Connection.control, Control.toFrame]
          rw [connectionRead_frameWrite ks p .error 0 (some msg) tail (by norm_num)
            (by intro d hd; cases hd; omega)]
          simp [frameToMessage]
      | login token =>
          simp only [Control.wf, Message.wf, decide_eq_true_eq] at hwf
          simp only [Connection.control, Control.toFrame]
          rw [connectionRead_frameWrite ks p .login 0 (some token) tail (by norm_num)
            (by intro d hd; cases hd; omega)]
          simp [frameToMessage]
      | register id name =>
          simp only [Control.wf, Message.wf, Bool.and_eq_true, decide_eq_true_eq] at hwf
          simp only [Connection.control, Control.toFrame]
          rw [connectionRead_frameWrite ks p .register id (some name) tail (by omega)
            (by intro d hd; cases hd; omega)]
          simp only [frameToMessage, normPayload_getD, Option.getD_some]
          rw [Nat.mod_eq_of_lt hwf.1]

/-- C1 witness: a concrete register message round-trips through a concrete
keystream. -/
theorem c1_roundtrip_witness :
    (Message.control (Control.register 3 (strBytes "svc"))).wf = true ∧
    Message.control (Control.register 3 (strBytes "svc")) ≠ Message.terminate ∧
    ∃ out : List Nat × Nat,
      Connection.sendMessage testKs 0
          (Message.control (Control.register 3 (strBytes "svc"))) = some out ∧
      Connection.read testKs 0 (out.1 ++ [9, 9]) =
        .ok (Message.control (Control.register 3 (strBytes "svc")), out.2, [9, 9]) :=
  ⟨by decide, by decide,
    c1_roundtrip testKs 0 (Message.control (Control.register 3 (strBytes "svc")))
      [9, 9] (by decide) (by decide)⟩

/-! ## Claim C7: header kind-byte validation -/

/-- C7: decoding a kind byte succeeds exactly when it lies in `0..=7`, with
the stable mapping 0 ↦ Ok, 1 ↦ Error, 2 ↦ Register, 3 ↦ FinishRegister,
4 ↦ Payload, 5 ↦ Close, 6 ↦ Terminate, 7 ↦ Login; and the frame reader
fails with `InvalidHeader` on every frame whose decrypted kind byte is
greater than 7. -/
theorem c7_kind_byte (b : Nat) (ks : Nat → Nat) (p : Nat) (r tail : List Nat)
    (hr : r.length = 6) :
    ((Kind.tryFrom b).isSome ↔ b ≤ 7) ∧
    (Kind.tryFrom 0 = some .ok ∧ Kind.tryFrom 1 = some .error ∧
     Kind.tryFrom 2 = some .register ∧ Kind.tryFrom 3 = some .finishRegister ∧
     Kind.tryFrom 4 = some .payload ∧ Kind.tryFrom 5 = some .close ∧
     Kind.tryFrom 6 = some .terminate ∧ Kind.tryFrom 7 = some .login) ∧
    (7 < b →
      frameRead ks p (applyKeystream ks p (b :: r) ++ tail) =
        .error Error.invalidHeader) := by
  have hnone : ∀ b, 7 < b → Kind.tryFrom b = none := by
    intro b hb
    obtain ⟨n, rfl⟩ : ∃ n, b = n + 8 := ⟨b - 8, by omega⟩
    exact Kind.tryFrom_eq_none n
  refine ⟨?_, by decide, ?_⟩
  · constructor
    · intro h
      by_contra hb
      push_neg at hb
      rw [hnone b hb] at h
      simp at h
    · intro h
      interval_cases b <;> decide
  · intro hb
    have hlen : (applyKeystream ks p (b :: r)).length = 7 := by simp [hr]
    have htake : (applyKeystream ks p (b :: r) ++ tail).take 7 =
        applyKeystream ks p (b :: r) := List.take_left' hlen
    simp only [frameRead, List.length_append, hlen, htake,
      applyKeystream_applyKeystream]
    rw [if_neg (by omega), List.getD_cons_zero, hnone b hb]

/-- C7 witness: instantiated at kind byte 9 with an identity-free concrete
keystream and a concrete 6-byte header remainder. -/
theorem c7_kind_byte_witness :
    ([2, 3, 4, 5, 6, 7] : List Nat).length = 6 ∧
    ((Kind.tryFrom 9).isSome ↔ (9 : Nat) ≤ 7) ∧
    (7 : Nat) < 9 ∧
    frameRead testKs 5 (applyKeystream testKs 5 (9 :: [2, 3, 4, 5, 6, 7]) ++ [1]) =
      .error Error.invalidHeader := by
  have h := c7_kind_byte 9 testKs 5 [2, 3, 4, 5, 6, 7] [1] (by decide)
  exact ⟨by decide, h.1, by decide, h.2.2 (by decide)⟩

/-! ## Claim C8: `Connection::write` clamps and reports consumed bytes -/

/-- C8: for every stream id and data buffer, `Connection::write` emits one
Payload frame whose payload is the first `min data.length 65535` bytes of
the data (as recovered by reading the emitted bytes back), and returns
`min data.length 65535` as the consumed byte count. -/
theorem c8_connection_write (ks : Nat → Nat) (p : Nat) (id : Nat) (data tail : List Nat)
    (hid : id < 2 ^ 32) :
    (Connection.write ks p id data).2 = min data.length 65535 ∧
    Connection.read ks p ((Connection.write ks p id data).1.1 ++ tail) =
      .ok (Message.payload id (data.take (min data.length 65535)),
           (Connection.write ks p id data).1.2, tail) := by
  set d := if data.length > 65535 then data.take 65535 else data with hd
  have hdlen : d.length = min data.length 65535 := by
    rw [hd]
    split <;> simp <;> omega
  have hdval : d = data.take (min data.length 65535) := by
    rw [hd]
    split
    · simp
      omega
    · rw [min_eq_left (by omega), List.take_length]
  constructor
  · simpa only [Connection.write] using hdlen
  · simp only [Connection.write]
    rw [connectionRead_frameWrite ks p .payload id (some d) tail hid
      (by intro e he; cases he; omega)]
    rw [frameToMessage_payload id d, ← hdval]

/-- C8 witness: a 4-byte buffer is consumed whole and read back intact. -/
theorem c8_connection_write_witness :
    (20 : Nat) < 2 ^ 32 ∧
    (Connection.write testKs 0 20 [104, 101, 108, 112]).2 =
      min ([104, 101, 108, 112] : List Nat).length 65535 ∧
    Connection.read testKs 0
        ((Connection.write testKs 0 20 [104, 101, 108, 112]).1.1 ++ []) =
      .ok (Message.payload 20 (([104, 101, 108, 112] : List Nat).take
             (min ([104, 101, 108, 112] : List Nat).length 65535)),
           (Connection.write testKs 0 20 [104, 101, 108, 112]).1.2, []) := by
  have h := c8_connection_write testKs 0 20 [104, 101, 108, 112] [] (by decide)
  exact ⟨by decide, h.1, h.2⟩

/-! ## Claim C3: cipher state independence -/

/-- C3 counterexample: an `Encrypted` value holds a *single* `cipher`
field used by both `poll_read` and `poll_write` (src/wire/encrypt.rs lines
43–59).  Starting from a fresh connection, decrypting a 3-byte read
advances that one cipher to position 3, and a subsequent write then
encrypts with the keystream byte at position 3 (value 4 under `testKs`) —
whereas with no intervening read the same write encrypts with the
keystream byte at position 0 (value 1).  So a read does change the
keystream position used for writes, refuting the claimed independence on
an unsplit connection. -/
theorem c3_independent_ciphers_counterexample :
    (EncryptedState.pollRead testKs EncryptedState.new [0, 0, 0]).2.pos = 3 ∧
    (EncryptedState.pollWrite testKs
        (EncryptedState.pollRead testKs EncryptedState.new [0, 0, 0]).2
        [0] (.ready 1)).1 = [4] ∧
    (EncryptedState.pollWrite testKs EncryptedState.new [0] (.ready 1)).1 = [1] := by
  decide

/-- C3 (amended): the two halves produced by `Encrypted::split` hold
independent, freshly constructed cipher states that both start at
keystream position 0 (each half is then used in only one direction); on
the unsplit connection, reads and writes share the single cipher state, so
a read of `chunk` advances the position used by the next write by exactly
`chunk.length`. -/
theorem c3_independent_ciphers (e : EncryptedState) (ks : Nat → Nat) (chunk : List Nat) :
    (EncryptedState.split e).1 = EncryptedState.new ∧
    (EncryptedState.split e).2 = EncryptedState.new ∧
    EncryptedState.new.pos = 0 ∧
    (EncryptedState.pollRead ks e chunk).2.pos = e.pos + chunk.length :=
  ⟨rfl, rfl, rfl, rfl⟩

/-! ## Claim C4: partial writes and backpressure do not over-advance -/

/-- C4: handing a buffer of length `m` to `Encrypted::poll_write` with the
cipher at position `p`: if the inner transport accepts `n < m` bytes the
cipher ends at exactly `p + n`; if it returns pending the cipher ends at
exactly `p`. -/
theorem c4_partial_write (ks : Nat → Nat) (p n : Nat) (buf : List Nat)
    (h : n < buf.length) :
    (EncryptedState.pollWrite ks ⟨p⟩ buf (.ready n)).2.pos = p + n ∧
    (EncryptedState.pollWrite ks ⟨p⟩ buf .pending).2.pos = p := by
  constructor
  · simp only [EncryptedState.pollWrite]
    rw [if_pos (by omega)]
  · rfl

/-- C4 witness: a 3-byte buffer, one byte accepted, leaves the cipher at
`p + 1`; a pending poll leaves it at `p`. -/
theorem c4_partial_write_witness :
    (1 : Nat) < ([5, 6, 7] : List Nat).length ∧
    (EncryptedState.pollWrite testKs ⟨2⟩ [5, 6, 7] (.ready 1)).2.pos = 2 + 1 ∧
    (EncryptedState.pollWrite testKs ⟨2⟩ [5, 6, 7] .pending).2.pos = 2 :=
  ⟨by decide, c4_partial_write testKs 2 1 [5, 6, 7] (by decide)⟩

/-! ## Claim C10: `Message::ok_or_err` -/

/-- `Message::ok_or_err` (src/wire/mod.rs lines 112–120). -/
def Message.ok_or_err : Message → Except Error Unit
  | .control .ok => .ok ()
  | .control (.error remote) => .error (.remote remote)
  | _ => .error .unexpectedMessage

/-- C10: `ok_or_err` returns success exactly on `Control(Ok)`, the
`Remote` error carrying the received string exactly on `Control(Error)`,
and `UnexpectedMessage` on every other message. -/
theorem c10_ok_or_err (m : Message) :
    (m.ok_or_err = .ok () ↔ m = .control .ok) ∧
    (∀ s, m.ok_or_err = .error (.remote s) ↔ m = .control (.error s)) ∧
    (m.ok_or_err = .error .unexpectedMessage ↔
      (m ≠ .control .ok ∧ ∀ s, m ≠ .control (.error s))) := by
  cases m with
  | control c => cases c <;> simp [Message.ok_or_err]
  | payload id data => simp [Message.ok_or_err]
  | terminate => simp [Message.ok_or_err]

/-! ## Handshake (src/wire/frame.rs `read_handshake`, src/wire/mod.rs `Server::accept`)

Handshake layout (`define_layout!(handshake, BigEndian, ...)`): magic `u32`,
version `u8`, key `[u8; 33]` — 38 bytes.  The handshake travels in the
clear, so no keystream is involved. -/

/-- `MAGIC` (src/wire/frame.rs line 9). -/
def MAGIC : Nat := 0x6469676c

/-- `read_handshake` (src/wire/frame.rs lines 41–65): read exactly 38
bytes (`ioErr` when the transport has fewer), check the magic, check the
version, and return the 33 key bytes. -/
def read_handshake (input : List Nat) : Except Error (List Nat) :=
  if input.length < 38 then .error .ioErr
  else if parse4 input ≠ MAGIC then .error .invalidMagic
  else if input.getD 4 0 ≠ 1 then .error (.invalidVersion (input.getD 4 0))
  else .ok ((input.drop 5).take 33)

/-- `Server::accept` (src/wire/mod.rs lines 72–87), up to producing the
peer's public key: run `read_handshake`, then decode the key bytes with
`secp256k1::PublicKey::from_slice` — modelled by the abstract decoder
`parse`, whose failure becomes `Error::Encryption` through the `#[from]`
conversion in src/lib.rs. -/
def Server.accept {α : Type} (parse : List Nat → Option α) (input : List Nat) :
    Except Error α :=
  match read_handshake input with
  | .error e => .error e
  | .ok key =>
      match parse key with
      | none => .error .encryption
      | some pk => .ok pk

/-! ## Claim C6: handshake validation order and outcomes -/

/-- C6: on a 38-byte handshake, accepting fails with `InvalidMagic`
exactly when the magic differs from `0x6469676C`; with the magic right it
fails with `InvalidVersion(v)` for the received version byte `v` exactly
when `v ≠ 1`; with magic and version right it fails with `Encryption`
exactly when the 33 key bytes do not decode to a valid curve point, and
otherwise succeeds with the decoded peer public key. -/
theorem c6_handshake {α : Type} (parse : List Nat → Option α) (input : List Nat)
    (hlen : input.length = 38) :
    (Server.accept parse input = .error .invalidMagic ↔ parse4 input ≠ MAGIC) ∧
    (parse4 input = MAGIC →
      (Server.accept parse input = .error (.invalidVersion (input.getD 4 0)) ↔
        input.getD 4 0 ≠ 1)) ∧
    (parse4 input = MAGIC → input.getD 4 0 = 1 →
      (Server.accept parse input = .error .encryption ↔
        parse ((input.drop 5).take 33) = none) ∧
      (∀ pk, parse ((input.drop 5).take 33) = some pk →
        Server.accept parse input = .ok pk)) := by
  have h38 : ¬ input.length < 38 := by omega
  by_cases hm : parse4 input = MAGIC
  · by_cases hv : input.getD 4 0 = 1
    · have hv' : input[4]?.getD 0 = 1 := by simpa using hv
      have hrh : read_handshake input = .ok ((input.drop 5).take 33) := by
        simp [read_handshake, h38, hm, hv']
      refine ⟨?_, fun _ => ?_, fun _ _ => ⟨?_, ?_⟩⟩
      · simp only [Server.accept, hrh]
        cases hp : parse ((input.drop 5).take 33) <;> simp [hm]
      · simp only [Server.accept, hrh]
        cases hp : parse ((input.drop 5).take 33) <;> simp [hv']
      · simp only [Server.accept, hrh]
        cases hp : parse ((input.drop 5).take 33) <;> simp
      · intro pk hpk
        simp [Server.accept, hrh, hpk]
    · have hv' : ¬ input[4]?.getD 0 = 1 := by simpa using hv
      have hrh : read_handshake input = .error (.invalidVersion (input.getD 4 0)) := by
        simp [read_handshake, h38, hm, hv']
      refine ⟨?_, fun _ => ?_, fun _ hv1 => absurd hv1 hv⟩
      · simp [Server.accept, hrh, hm]
      · simp [Server.accept, hrh, hv']
  · have hrh : read_handshake input = .error .invalidMagic := by
      simp [read_handshake, h38, hm]
    exact ⟨by simp [Server.accept, hrh, hm], fun hm1 => absurd hm1 hm,
      fun hm1 _ => absurd hm1 hm⟩

/-- C6 witness: a correct 38-byte handshake whose key bytes decode,
instantiated with a decoder accepting any 33-byte slice. -/
theorem c6_handshake_witness :
    (0x64 :: 0x69 :: 0x67 :: 0x6c :: 1 :: List.replicate 33 7).length = 38 ∧
    parse4 (0x64 :: 0x69 :: 0x67 :: 0x6c :: 1 :: List.replicate 33 7) = MAGIC ∧
    (Server.accept parse33
        (0x64 :: 0x69 :: 0x67 :: 0x6c :: 1 :: List.replicate 33 7) =
      .error Error.encryption ↔
      parse33
        (((0x64 :: 0x69 :: 0x67 :: 0x6c :: 1 :: List.replicate 33 7).drop 5).take 33) =
        none) := by
  have h := c6_handshake parse33
    (0x64 :: 0x69 :: 0x67 :: 0x6c :: 1 :: List.replicate 33 7) (by decide)
  exact ⟨by decide, by decide, (h.2.2 (by decide) (by decide)).1⟩

/-! ## Gateway registration phase (src/server/mod.rs `handle_agent`, lines 107–147)

The loop `while let Ok(message) = connection.read()` over the agent's
messages.  The incoming messages are modelled as the list of successfully
read messages (list exhaustion models a read error, which also leaves the
loop and falls through to the `registrations.len() != 1` check).  Frames
sent to the agent are collected as a `List Control`; the external
`Authenticate::authorize` hook is the oracle `authorize`. -/

/-- Outcome of `Authenticate::authorize(user_id, name)`: `Ok(true)`,
`Ok(false)`, or `Err(e)` (with `e`'s rendering). -/
inductive AuthResult where
  | allow
  | deny
  | err (msg : List Nat)
deriving DecidableEq, Repr

/-- How the registration phase of `handle_agent` ends, each carrying the
recorded `registrations` vector at that point: `endedOk` is `return Ok(())`
(graceful protocol-level session end), `failed e` is `return Err(e)`, and
`serving` is falling through to the serving phase. -/
inductive SessionEnd where
  | endedOk (regs : List (Nat × List Nat))
  | failed (e : Error) (regs : List (Nat × List Nat))
  | serving (regs : List (Nat × List Nat))
deriving DecidableEq, Repr

/-- The registration loop of `handle_agent` (src/server/mod.rs lines
107–152), including the post-loop `registrations.len() != 1` check.
Returns the control frames sent to the agent and how the phase ended. -/
def registerLoop (authorize : List Nat → AuthResult) :
    List (Nat × List Nat) → List Message → List Control × SessionEnd
  | regs, [] =>
      if regs.length ≠ 1 then
        ([.error (strBytes "missing name registration")], .endedOk regs)
      else ([], .serving regs)
  | regs, m :: rest =>
      match m with
      | .control (.register id name) =>
          if regs.length == 1 then
            ([.error (strBytes "only one name registration is allowed")], .endedOk regs)
          else
            match authorize name with
            | .deny =>
                ([.error (strBytes "not authorized to use this domain")], .endedOk regs)
            | .err e => ([.error e], .endedOk regs)
            | .allow =>
                let next := registerLoop authorize (regs ++ [(id, name)]) rest
                (.ok :: next.1, next.2)
      | .control .finishRegister =>
          if regs.length ≠ 1 then
            ([.error (strBytes "missing name registration")], .endedOk regs)
          else ([], .serving regs)
      | _ =>
          ([.error (strBytes "received unexpected message")],
           .failed .unexpectedMessage regs)

/-- An authorize oracle that allows every name. -/
def allowAll (_ : List Nat) : AuthResult := .allow

/-! ## Claim C5: duplicate registration is rejected gracefully -/

/-- C5: a `Register{id,name}` arriving when one registration is already
recorded makes the gateway send `Error("only one name registration is
allowed")`, record nothing new, end the session right there (the remaining
messages are never processed), and report success (`endedOk`, i.e.
`return Ok(())`), not an error, to the outer scope. -/
theorem c5_duplicate_register (authorize : List Nat → AuthResult)
    (regs : List (Nat × List Nat)) (id : Nat) (name : List Nat) (rest : List Message)
    (h : regs.length = 1) :
    registerLoop authorize regs (.control (.register id name) :: rest) =
      ([Control.error (strBytes "only one name registration is allowed")],
       .endedOk regs) := by
  simp [registerLoop, h]

/-- C5 witness: with one recorded registration, a concrete second
`Register` is rejected with the exact error and a graceful end. -/
theorem c5_duplicate_register_witness :
    ([((0 : Nat), strBytes "svc")] : List (Nat × List Nat)).length = 1 ∧
    registerLoop allowAll [(0, strBytes "svc")]
        [.control (.register 0 (strBytes "other")), .control .finishRegister] =
      ([Control.error (strBytes "only one name registration is allowed")],
       .endedOk [(0, strBytes "svc")]) :=
  ⟨by decide,
    c5_duplicate_register allowAll [(0, strBytes "svc")] 0
      (strBytes "other") [.control .finishRegister] (by decide)⟩

/-! ## Agent multiplexer loop (src/agent/mod.rs `serve`, lines 60–136)

`serve` reads messages from the gateway and maintains the `Backends`
table (`backend_connections: HashMap<Stream, BackendClient>`), modelled by
the list of stream ids present.  The outcomes of the external effects —
`TcpStream::connect(&backend)` and `write_all` to a backend socket — are
oracles indexed by how many such calls have happened, with counters kept
in the state. -/

/-- Agent state for `serve`: the keys of the `Backends` table plus how
many backend connect attempts and backend writes have happened (indices
into the outcome oracles). -/
structure AgentState where
  tbl : List Nat
  nconnects : Nat
  nwrites : Nat
deriving DecidableEq, Repr

/-- One iteration of the agent `serve` loop (src/agent/mod.rs lines
70–132): `Payload{stream,·}` writes to the existing entry (on write error:
send `Close` and remove); for an absent stream it connects to the backend
(on failure: send `Close` and skip — `continue`), otherwise inserts the
entry, spawns the upstream pump, and writes the payload to the fresh
connection; `Control(Close)` removes the entry; anything else is logged
and ignored.  Returns the control frames sent upstream and the new state. -/
def serveStep (connectOk writeOk : Nat → Bool) (st : AgentState) (m : Message) :
    List Control × AgentState :=
  match m with
  | .payload id _ =>
      if st.tbl.contains id then
        if writeOk st.nwrites then ([], { st with nwrites := st.nwrites + 1 })
        else ([.close id],
              { st with tbl := st.tbl.erase id, nwrites := st.nwrites + 1 })
      else if connectOk st.nconnects then
        let st1 := { st with tbl := st.tbl ++ [id], nconnects := st.nconnects + 1 }
        if writeOk st1.nwrites then ([], { st1 with nwrites := st1.nwrites + 1 })
        else ([.close id],
              { st1 with tbl := st1.tbl.erase id, nwrites := st1.nwrites + 1 })
      else ([.close id], { st with nconnects := st.nconnects + 1 })
  | .control (.close id) => ([], { st with tbl := st.tbl.erase id })
  | _ => ([], st)

/-- The agent `serve` loop over the messages read from the gateway. -/
def serve (connectOk writeOk : Nat → Bool) :
    AgentState → List Message → List Control × AgentState
  | st, [] => ([], st)
  | st, m :: rest =>
      let s := serveStep connectOk writeOk st m
      let next := serve connectOk writeOk s.2 rest
      (s.1 ++ next.1, next.2)

/-- A connect oracle that always fails. -/
def connectNever (_ : Nat) : Bool := false

/-- A write oracle that always succeeds. -/
def writeAlways (_ : Nat) : Bool := true

/-! ## Claim C9: backend connect failure sends Close and continues -/

/-- C9: a `Payload{stream,·}` for a stream absent from the Backends table
whose backend TCP connect fails makes the agent send `Close{stream}`
upstream, leave the table unchanged, and continue processing the
subsequent messages. -/
theorem c9_connect_failure (connectOk writeOk : Nat → Bool) (st : AgentState)
    (id : Nat) (data : List Nat) (rest : List Message)
    (habs : st.tbl.contains id = false)
    (hfail : connectOk st.nconnects = false) :
    ({ st with nconnects := st.nconnects + 1 } : AgentState).tbl = st.tbl ∧
    serve connectOk writeOk st (.payload id data :: rest) =
      (Control.close id ::
         (serve connectOk writeOk { st with nconnects := st.nconnects + 1 } rest).1,
       (serve connectOk writeOk { st with nconnects := st.nconnects + 1 } rest).2) := by
  refine ⟨rfl, ?_⟩
  have hmem : id ∉ st.tbl := by simpa using habs
  simp [serve, serveStep, hmem, hfail]

/-- C9 witness: a backend connect failure for stream 7 with one further
Close message still processed afterwards. -/
theorem c9_connect_failure_witness :
    (([5] : List Nat).contains 7 = false) ∧
    (connectNever 0 = false) ∧
    serve connectNever writeAlways ⟨[5], 0, 0⟩
        [.payload 7 [1], .control (.close 5)] =
      (Control.close 7 ::
         (serve connectNever writeAlways ⟨[5], 1, 0⟩ [.control (.close 5)]).1,
       (serve connectNever writeAlways ⟨[5], 1, 0⟩ [.control (.close 5)]).2) :=
  ⟨by decide, rfl,
    (c9_connect_failure connectNever writeAlways ⟨[5], 0, 0⟩ 7 [1]
      [.control (.close 5)] (by decide) rfl).2⟩

/-! ## Claim C2: encrypted channel round-trip under arbitrary splitting

`write_all` on an `Encrypted` writer repeatedly calls `poll_write` on the
not-yet-accepted remainder until the buffer is consumed; the transport's
behaviour is the schedule of accepted byte counts (an accepted count of 0
has the same effect as a pending poll: nothing sent, position kept).
`writeAll` and `writeChunks` drive those polls over explicit schedules.

On the read side there are two regimes.  A plain `read` call hands
`poll_read` a fresh `ReadBuf` each time, so each poll decrypts exactly the
newly delivered bytes (`readChunks`).  `read_exact` — which is how this
codebase reads frames — reuses a single `ReadBuf` across polls, and
`Encrypted::poll_read` XORs the whole filled region every time
(`readExactPolls`); when the transport splits one `read_exact` across
several polls, the earlier bytes are re-XORed at fresh keystream
positions and the cipher over-advances. -/

/-- `write_all` of `buf` against an acceptance schedule: each entry `n`
is one `poll_write` of the remaining bytes of which the transport accepts
`n`.  Returns (ciphertext handed to the transport, final cipher position,
bytes of `buf` still unwritten when the schedule ends). -/
def writeAll (ks : Nat → Nat) : Nat → List Nat → List Nat → List Nat × Nat × List Nat
  | p, buf, [] => ([], p, buf)
  | p, buf, n :: sched =>
      let step := EncryptedState.pollWrite ks ⟨p⟩ buf (.ready n)
      let next := writeAll ks step.2.pos (buf.drop n) sched
      (step.1 ++ next.1, next.2)

/-- Writing a sequence of chunks, each through its own `write_all`
schedule.  Returns the concatenated ciphertext and the final position. -/
def writeChunks (ks : Nat → Nat) :
    Nat → List (List Nat) → List (List Nat) → List Nat × Nat
  | p, [], _ => ([], p)
  | p, _ :: _, [] => ([], p)
  | p, c :: cs, s :: ss =>
      let w := writeAll ks p c s
      let next := writeChunks ks w.2.1 cs ss
      (w.1 ++ next.1, next.2)

/-- Reading ciphertext back in chunks of the given sizes on a separately
constructed cipher state, each chunk delivered into a fresh `ReadBuf`
(one `poll_read` per plain `read` call, empty prefill). -/
def readChunks (ks : Nat → Nat) : Nat → List Nat → List Nat → List Nat
  | _, _, [] => []
  | p, bytes, n :: sizes =>
      let step := EncryptedState.pollRead ks ⟨p⟩ (bytes.take n)
      step.1 ++ readChunks ks step.2.pos (bytes.drop n) sizes

/-- One `read_exact`: a single `ReadBuf` is reused across polls.  Each
schedule entry is the ciphertext bytes the inner transport appends in one
poll; `Encrypted::poll_read` then XORs the whole filled region.  Returns
the final buffer contents and cipher state. -/
def readExactPolls (ks : Nat → Nat) :
    EncryptedState → List Nat → List (List Nat) → List Nat × EncryptedState
  | e, buf, [] => (buf, e)
  | e, buf, new :: rest =>
      let step := EncryptedState.pollReadBuf ks e buf new
      readExactPolls ks step.2 step.1 rest

/-- The unwritten remainder of `writeAll` is the schedule's iterated drop
of the buffer — independent of keystream and position. -/
theorem writeAll_leftover (ks : Nat → Nat) (sched : List Nat) (p : Nat) (buf : List Nat) :
    (writeAll ks p buf sched).2.2 =
      sched.foldl (fun (b : List Nat) n => b.drop n) buf := by
  induction sched generalizing p buf with
  | nil => rfl
  | cons n rest ih => simp [writeAll, ih]

/-- A `write_all` whose schedule consumes the whole buffer sends exactly
the keystream encryption of the buffer and leaves the cipher at
`p + buf.length`. -/
theorem writeAll_complete (ks : Nat → Nat) (sched : List Nat) (p : Nat) (buf : List Nat)
    (h : (writeAll ks p buf sched).2.2 = []) :
    (writeAll ks p buf sched).1 = applyKeystream ks p buf ∧
    (writeAll ks p buf sched).2.1 = p + buf.length := by
  induction sched generalizing p buf with
  | nil =>
      have : buf = [] := h
      subst this
      exact ⟨rfl, rfl⟩
  | cons n rest ih =>
      have hleft : (writeAll ks (EncryptedState.pollWrite ks ⟨p⟩ buf (.ready n)).2.pos
          (buf.drop n) rest).2.2 = [] := by
        simpa [writeAll] using h
      have hpos : (EncryptedState.pollWrite ks ⟨p⟩ buf (.ready n)).2.pos =
          p + min n buf.length := by
        simp only [EncryptedState.pollWrite]
        split
        · next hgt =>
            show p + n = p + min n buf.length
            omega
        · next hle =>
            show p + buf.length = p + min n buf.length
            omega
      have hout : (EncryptedState.pollWrite ks ⟨p⟩ buf (.ready n)).1 =
          applyKeystream ks p (buf.take n) := by
        simp only [EncryptedState.pollWrite]
        split
        · next hgt => exact applyKeystream_take ks p n buf
        · next hle =>
            show applyKeystream ks p buf = applyKeystream ks p (buf.take n)
            rw [List.take_of_length_le (by omega)]
      rw [hpos] at hleft
      have ihc := ih (p + min n buf.length) (buf.drop n) hleft
      have htk : buf.take n = buf.take (min n buf.length) := by
        rcases Nat.le_total n buf.length with hle | hle
        · rw [min_eq_left hle]
        · rw [min_eq_right hle, List.take_of_length_le hle, List.take_length]
      have hdr : buf.drop n = buf.drop (min n buf.length) := by
        rcases Nat.le_total n buf.length with hle | hle
        · rw [min_eq_left hle]
        · rw [min_eq_right hle, List.drop_of_length_le hle, List.drop_length]
      have hlenk : (buf.take (min n buf.length)).length = min n buf.length := by
        rw [List.length_take]
        omega
      constructor
      · simp only [writeAll, hpos, hout]
        rw [ihc.1]
        calc applyKeystream ks p (buf.take n) ++
              applyKeystream ks (p + min n buf.length) (buf.drop n)
            = applyKeystream ks p (buf.take (min n buf.length)) ++
                applyKeystream ks (p + (buf.take (min n buf.length)).length)
                  (buf.drop (min n buf.length)) := by
              rw [htk, hdr, hlenk]
          _ = applyKeystream ks p
                (buf.take (min n buf.length) ++ buf.drop (min n buf.length)) :=
              (applyKeystream_append ks p _ _).symm
          _ = applyKeystream ks p buf := by rw [List.take_append_drop]
      · simp only [writeAll, hpos]
        rw [ihc.2]
        have hd : (buf.drop n).length = buf.length - n := List.length_drop n buf
        omega

/-- Taking `n` is taking `min n length`. -/
theorem take_min_length {α : Type} (n : Nat) (l : List α) :
    l.take n = l.take (min n l.length) := by
  rcases Nat.le_total n l.length with hle | hle
  · rw [min_eq_left hle]
  · rw [min_eq_right hle, List.take_of_length_le hle, List.take_length]

/-- Dropping `n` is dropping `min n length`. -/
theorem drop_min_length {α : Type} (n : Nat) (l : List α) :
    l.drop n = l.drop (min n l.length) := by
  rcases Nat.le_total n l.length with hle | hle
  · rw [min_eq_left hle]
  · rw [min_eq_right hle, List.drop_of_length_le hle, List.drop_length]

/-- Writing chunks whose schedules each consume their whole chunk sends
exactly the keystream encryption of the concatenated plaintext. -/
theorem writeChunks_complete (ks : Nat → Nat) (cs ss : List (List Nat)) (p : Nat)
    (hlen : cs.length = ss.length)
    (hw : ∀ pr ∈ cs.zip ss, pr.2.foldl (fun (b : List Nat) n => b.drop n) pr.1 = []) :
    (writeChunks ks p cs ss).1 = applyKeystream ks p cs.flatten ∧
    (writeChunks ks p cs ss).2 = p + cs.flatten.length := by
  induction cs generalizing ss p with
  | nil => simp [writeChunks]
  | cons c cs' ih =>
      cases ss with
      | nil => simp at hlen
      | cons s ss' =>
          have hc : (writeAll ks p c s).2.2 = [] := by
            rw [writeAll_leftover]
            exact hw (c, s) (by simp)
          have hall := writeAll_complete ks s p c hc
          have ihc := ih ss' (p + c.length) (by simpa using hlen)
            (fun pr hpr => hw pr (by simp [hpr]))
          constructor
          · simp only [writeChunks, hall.2, hall.1, ihc.1, List.flatten_cons]
            rw [applyKeystream_append]
          · simp only [writeChunks, hall.2, ihc.2, List.flatten_cons]
            simp [List.length_append]
            omega

/-- Reading ciphertext in chunks that together consume it all yields the
keystream decryption of the whole ciphertext. -/
theorem readChunks_complete (ks : Nat → Nat) (sizes : List Nat) (p : Nat)
    (bytes : List Nat)
    (h : sizes.foldl (fun (b : List Nat) n => b.drop n) bytes = []) :
    readChunks ks p bytes sizes = applyKeystream ks p bytes := by
  induction sizes generalizing p bytes with
  | nil =>
      have : bytes = [] := h
      subst this
      rfl
  | cons n rest ih =>
      have hleft : rest.foldl (fun (b : List Nat) n => b.drop n) (bytes.drop n) = [] := by
        simpa using h
      simp only [readChunks, EncryptedState.pollRead]
      rw [ih _ _ hleft]
      have hlenk : (bytes.take (min n bytes.length)).length = min n bytes.length := by
        rw [List.length_take]
        omega
      calc applyKeystream ks p (bytes.take n) ++
            applyKeystream ks (p + (bytes.take n).length) (bytes.drop n)
          = applyKeystream ks p (bytes.take (min n bytes.length)) ++
              applyKeystream ks (p + (bytes.take (min n bytes.length)).length)
                (bytes.drop (min n bytes.length)) := by
            rw [← take_min_length, ← drop_min_length]
        _ = applyKeystream ks p
              (bytes.take (min n bytes.length) ++ bytes.drop (min n bytes.length)) :=
            (applyKeystream_append ks p _ _).symm
        _ = applyKeystream ks p bytes := by rw [List.take_append_drop]

/-- The round trip that the spec intends does hold in the fresh-buffer
read regime: chunks written under arbitrary partial-accept write
schedules and read back through a separately constructed same-key cipher
in plain reads (each poll into an empty `ReadBuf`) reproduce the
plaintext.  This is the regime the claim's code slip does not reach; see
`c2_read_exact_desync` for the violation in the `read_exact` regime. -/
theorem freshReads_roundtrip (ks : Nat → Nat) (chunks scheds : List (List Nat))
    (sizes : List Nat)
    (hlen : chunks.length = scheds.length)
    (hw : ∀ pr ∈ chunks.zip scheds,
      pr.2.foldl (fun (b : List Nat) n => b.drop n) pr.1 = [])
    (hr : sizes.foldl (fun (b : List Nat) n => b.drop n)
      (writeChunks ks 0 chunks scheds).1 = []) :
    readChunks ks 0 (writeChunks ks 0 chunks scheds).1 sizes = chunks.flatten := by
  rw [readChunks_complete ks sizes 0 _ hr,
    (writeChunks_complete ks chunks scheds 0 hlen hw).1,
    applyKeystream_applyKeystream]

/-- C2: the code violates the claim.  `Encrypted::poll_read`
(src/wire/encrypt.rs line 78) XORs `buf.filled_mut()` — the *whole*
filled region of the `ReadBuf` — while `read_exact`, the reader this
codebase and the spec scenario use, reuses one `ReadBuf` across polls.
Failing input: keystream `testKs` (bytes 1, 2, 3, …), plaintext chunk
`[0, 0]` written in one fully accepted poll (ciphertext `[1, 2]`, writer
cipher at position 2), read back through a separately constructed
same-key cipher whose transport delivers the two ciphertext bytes in two
polls of one byte each.  The second poll re-XORs the already-decrypted
first byte at keystream position 1 and decrypts the second byte at
position 2 (the writer encrypted it at position 1): the reader yields
`[2, 1]`, not the original `[0, 0]`, and its cipher ends at position 3
while the writer's is at 2.  The claim demands the original plaintext for
every way the transport splits the reads. -/
theorem c2_read_exact_desync :
    (EncryptedState.pollWrite testKs EncryptedState.new [0, 0] (.ready 2)).1 = [1, 2] ∧
    (EncryptedState.pollWrite testKs EncryptedState.new [0, 0] (.ready 2)).2.pos = 2 ∧
    (readExactPolls testKs EncryptedState.new []
        [((EncryptedState.pollWrite testKs EncryptedState.new [0, 0] (.ready 2)).1).take 1,
         ((EncryptedState.pollWrite testKs EncryptedState.new [0, 0] (.ready 2)).1).drop 1]).1 =
      [2, 1] ∧
    ([2, 1] : List Nat) ≠ [0, 0] ∧
    (readExactPolls testKs EncryptedState.new []
        [((EncryptedState.pollWrite testKs EncryptedState.new [0, 0] (.ready 2)).1).take 1,
         ((EncryptedState.pollWrite testKs EncryptedState.new [0, 0] (.ready 2)).1).drop 1]).2.pos =
      3 := by
  decide

end Diglett
